import Mathlib

/-!
Shallow embedding of the RAG core of the repository: the document chunker
(`src/aimagine/src/services/data_ingestion.py`) and the vector index
(`src/aimagine/src/services/faiss_service.py`), together with theorems
settling the specification claims about them.

Python text is modelled as `List Char`, Python ints as `Int`/`Nat`, and
floating point numbers are idealised as exact rationals (`ℚ`); only order
and field properties of scores/distances are used.  Fallible or possibly
non-terminating Python code is modelled in `Except` with a fuel parameter;
a distinguished error value models a raised Python exception, another one
models exhausted fuel.
-/

deriving instance DecidableEq for Except

namespace Aimagine

/-! ### Python string primitives -/

/-- Python `str.isspace` restricted to the ASCII whitespace characters
(the repository's inputs are ASCII; other Unicode space characters are out
of the modelled character range). -/
def pyIsSpace (c : Char) : Bool :=
  c == ' ' || c == '\t' || c == '\n' || c == '\r' || c == '\x0b' || c == '\x0c'

/-- Python `str.strip()`: remove leading and trailing whitespace. -/
def pyStrip (l : List Char) : List Char :=
  ((l.dropWhile pyIsSpace).reverse.dropWhile pyIsSpace).reverse

/-- Normalise a Python slice endpoint to an absolute position in `[0, n]`,
following Python slice semantics: negative values count from the end
(clamped at 0), positive values are clamped at `n`. -/
def sliceIdx (n : Nat) (i : Int) : Nat :=
  if i < 0 then ((n : Int) + i).toNat else min i.toNat n

/-- Python `text[s:e]` on a character list. -/
def pySlice (l : List Char) (s e : Int) : List Char :=
  (l.take (sliceIdx l.length e)).drop (sliceIdx l.length s)

/-- Right-to-left scan used to model `str.rfind`: fold over the candidate
positions `0, 1, ..., n-1` keeping the last (hence largest) position
satisfying `p`, with `-1` when none does. -/
def rfindRange (p : Nat → Bool) (n : Nat) : Int :=
  (List.range n).foldl (fun acc j => if p j then (j : Int) else acc) (-1)

/-- Python `text.rfind(c, s, e)`: the largest position of character `c`
within the normalised slice range, or `-1` when there is none. -/
def pyRfind (l : List Char) (c : Char) (s e : Int) : Int :=
  let a := sliceIdx l.length s
  let b := sliceIdx l.length e
  rfindRange (fun j => decide (a ≤ j) && decide (j < b) && (l[j]? == some c)) l.length

/-! ### Chunker data model (`data_ingestion.py`) -/

/-- `ChunkingConfig` dataclass. -/
structure ChunkingConfig where
  chunk_size : Nat := 1000
  chunk_overlap : Nat := 200
  split_on_headings : Bool := true
  preserve_hierarchy : Bool := true
  min_chunk_size : Nat := 100
  max_chunk_size : Nat := 2000
deriving DecidableEq

/-- A header record `{text, level, position}` as produced by the markdown
parser. -/
structure Header where
  text : String
  level : Nat
  position : Nat
deriving DecidableEq

/-- The `metadata` dict attached to a chunk.  The source uses a string-keyed
dict with the recognised keys `header`, `level`, `hierarchy` and `type`;
an absent key is `none`. -/
structure ChunkMeta where
  header : Option String := none
  level : Option Nat := none
  hierarchy : Option (List String) := none
  type : Option String := none
deriving DecidableEq

/-- Python `dict.update`: keys present in `upd` overwrite those of `base`. -/
def metaUpdate (base upd : ChunkMeta) : ChunkMeta :=
  { header := upd.header.orElse (fun _ => base.header),
    level := upd.level.orElse (fun _ => base.level),
    hierarchy := upd.hierarchy.orElse (fun _ => base.hierarchy),
    type := upd.type.orElse (fun _ => base.type) }

/-- A chunk dict `{text, start_idx, end_idx, metadata}`.  Offsets are `Int`
because the basic-chunking loop can drive `start` negative. -/
structure Chunk where
  text : List Char
  start_idx : Int
  end_idx : Int
  metadata : ChunkMeta
deriving DecidableEq

/-- Outcome of running a piece of chunking code: a raised Python exception
(`valueError`, from `max()` over an empty sequence) or exhausted fuel
(modelling a non-terminating loop). -/
inductive ChunkErr where
  | valueError
  | noFuel
deriving DecidableEq

/-! ### `_create_basic_chunks` -/

/-- Result of one iteration of the `while` loop of `_create_basic_chunks`:
emit a chunk and continue at `next`, skip (empty after strip) and continue,
halt (loop condition false), or raise. -/
inductive BasicStep where
  | emit (c : Chunk) (next : Int)
  | skip (next : Int)
  | halt
  | err
deriving DecidableEq

/-- One iteration of the `while start < len(text)` loop body of
`_create_basic_chunks`.  Mirrors the source: the tentative end is
`start + chunk_size`; when it falls before the end of the text the four
`rfind` calls look for `'.'`, `'!'`, `'?'`, `'\n'` in `[start, end)`, and
`max()` over the non-`-1` results raises `ValueError` when all four are
`-1` (the subsequent `if natural_break != -1` test in the source is dead
code).  The next start is always `end - chunk_overlap`. -/
def basicChunkStep (cfg : ChunkingConfig) (text : List Char) (start : Int) : BasicStep :=
  if start < (text.length : Int) then
    let end0 : Int := start + cfg.chunk_size
    let eres : Except Unit Int :=
      if end0 < (text.length : Int) then
        let break_points := [pyRfind text '.' start end0, pyRfind text '!' start end0,
                             pyRfind text '?' start end0, pyRfind text '\n' start end0]
        match break_points.filter (fun p => p != -1) with
        | [] => Except.error ()
        | v :: vs =>
          let natural_break := vs.foldl max v
          Except.ok (if natural_break != -1 then natural_break + 1 else end0)
      else Except.ok (text.length : Int)
    match eres with
    | Except.error _ => BasicStep.err
    | Except.ok e =>
      let chunk_text := pyStrip (pySlice text start e)
      if chunk_text ≠ [] then
        BasicStep.emit ⟨chunk_text, start, e, { type := some "basic_chunk" }⟩
          (e - cfg.chunk_overlap)
      else BasicStep.skip (e - cfg.chunk_overlap)
  else BasicStep.halt

/-- The `while` loop of `_create_basic_chunks`, driven by `basicChunkStep`
with explicit fuel (the source loop does not terminate for every input). -/
def create_basic_chunksAux (cfg : ChunkingConfig) (text : List Char) :
    Nat → Int → List Chunk → Except ChunkErr (List Chunk)
  | 0, _, _ => Except.error ChunkErr.noFuel
  | fuel + 1, start, acc =>
    match basicChunkStep cfg text start with
    | BasicStep.halt => Except.ok acc
    | BasicStep.err => Except.error ChunkErr.valueError
    | BasicStep.emit c next => create_basic_chunksAux cfg text fuel next (acc ++ [c])
    | BasicStep.skip next => create_basic_chunksAux cfg text fuel next acc

/-- `_create_basic_chunks(text)`. -/
def create_basic_chunks (cfg : ChunkingConfig) (text : List Char) (fuel : Nat) :
    Except ChunkErr (List Chunk) :=
  create_basic_chunksAux cfg text fuel 0 []

/-! ### `_split_on_headers` and `_get_chunk_hierarchy` -/

/-- The reverse walk of `_get_chunk_hierarchy`, kept on `Header` records so
that level/position facts can be stated about the collected entries; the
first argument list is walked front-to-back (the caller passes
`headers.reverse`), threading `current_level`. -/
def get_chunk_hierarchyAux (curpos : Nat) : Nat → List Header → List Header
  | _, [] => []
  | current_level, h :: rest =>
    if h.position < curpos ∧ h.level < current_level then
      h :: get_chunk_hierarchyAux curpos h.level rest
    else
      get_chunk_hierarchyAux curpos current_level rest

/-- Header-valued version of `_get_chunk_hierarchy(current_header, headers)`:
walk `reversed(headers)`, collect each header strictly above the current
one in level and strictly before it in position, updating the running
level, then reverse into root-to-leaf order. -/
def get_chunk_hierarchyH (current_header : Header) (headers : List Header) : List Header :=
  (get_chunk_hierarchyAux current_header.position current_header.level headers.reverse).reverse

/-- `_get_chunk_hierarchy` as in the source: the collected headers'
`text` fields. -/
def get_chunk_hierarchy (current_header : Header) (headers : List Header) : List String :=
  (get_chunk_hierarchyH current_header headers).map Header.text

/-- The enumeration loop of `_split_on_headers` over the sorted header list:
each header's chunk runs from its own position to the next header's
position (or to the end of the text), is stripped, and is dropped when
empty; `all` is the full sorted list used for hierarchy construction. -/
def split_on_headersAux (text : List Char) (all : List Header) : List Header → List Chunk
  | [] => []
  | h :: rest =>
    let end_pos : Nat :=
      match rest with
      | h2 :: _ => h2.position
      | [] => text.length
    let chunk_text := pyStrip (pySlice text (h.position : Int) (end_pos : Int))
    let tail := split_on_headersAux text all rest
    if chunk_text ≠ [] then
      ⟨chunk_text, (h.position : Int), (end_pos : Int),
        { header := some h.text, level := some h.level,
          hierarchy := some (get_chunk_hierarchy h all) }⟩ :: tail
    else tail

/-- `_split_on_headers(text, headers)`: sort headers by position (Python's
`sorted` is a stable sort, so the stable `insertionSort` models it exactly)
and cut one chunk per header. -/
def split_on_headers (text : List Char) (headers : List Header) : List Chunk :=
  let hs := List.insertionSort (fun a b => a.position ≤ b.position) headers
  split_on_headersAux text hs hs

/-! ### `_normalize_chunk_sizes` -/

/-- The loop of `_normalize_chunk_sizes`, with `acc` playing the role of
`normalized_chunks`.  Faithful to the source's control flow: the oversized
branch has no `continue`, so after extending with the sub-chunks the
original chunk is appended as well; the undersized branch merges into the
last accumulated chunk only when the combined text fits. -/
def normalize_chunk_sizesAux (cfg : ChunkingConfig) (fuel : Nat) :
    List Chunk → List Chunk → Except ChunkErr (List Chunk)
  | [], acc => Except.ok acc
  | chunk :: rest, acc =>
    if chunk.text.length > cfg.max_chunk_size then
      match create_basic_chunks cfg chunk.text fuel with
      | Except.error e => Except.error e
      | Except.ok sub_chunks =>
        let subs := sub_chunks.map
          (fun sc => { sc with metadata := metaUpdate sc.metadata chunk.metadata })
        normalize_chunk_sizesAux cfg fuel rest ((acc ++ subs) ++ [chunk])
    else if chunk.text.length < cfg.min_chunk_size ∧ acc ≠ [] then
      match acc.getLast? with
      | some prev =>
        let combined_text := prev.text ++ ' ' :: chunk.text
        if combined_text.length ≤ cfg.max_chunk_size then
          normalize_chunk_sizesAux cfg fuel rest
            (acc.dropLast ++ [{ prev with text := combined_text, end_idx := chunk.end_idx }])
        else
          normalize_chunk_sizesAux cfg fuel rest (acc ++ [chunk])
      | none => normalize_chunk_sizesAux cfg fuel rest (acc ++ [chunk])
    else normalize_chunk_sizesAux cfg fuel rest (acc ++ [chunk])

/-- `_normalize_chunk_sizes(chunks)`. -/
def normalize_chunk_sizes (cfg : ChunkingConfig) (fuel : Nat) (chunks : List Chunk) :
    Except ChunkErr (List Chunk) :=
  normalize_chunk_sizesAux cfg fuel chunks []

/-- `_create_structured_chunks(text, metadata)`: split on headers when
`split_on_headings` is set and the parsed header list is non-empty
(a truthy `metadata.get('headers')`), otherwise fall back to basic
chunking; always post-process with `_normalize_chunk_sizes`. -/
def create_structured_chunks (cfg : ChunkingConfig) (text : List Char)
    (headers : List Header) (fuel : Nat) : Except ChunkErr (List Chunk) :=
  match
    (if cfg.split_on_headings && !headers.isEmpty then
      Except.ok (split_on_headers text headers)
    else
      create_basic_chunks cfg text fuel) with
  | Except.error e => Except.error e
  | Except.ok chunks => normalize_chunk_sizes cfg fuel chunks

/-! ### Vector index data model (`faiss_service.py`)

The FAISS library itself is an external dependency; its flat indexes are
modelled exactly: a flat index is its metric together with the list of
stored vectors, `add` appends, and `search` ranks all stored vectors by
the metric (ascending squared L2 distance, or descending inner product)
and returns `k` `(distance, id)` pairs, the slots beyond the number of
stored vectors being filled with id `-1`.  Embedding vectors are lists of
rationals (floats idealised as exact reals). -/

/-- The two flat index kinds `_create_index` can build:
`faiss.IndexFlatL2` and `faiss.IndexFlatIP`. -/
inductive Metric where
  | l2
  | ip
deriving DecidableEq

/-- A FAISS flat index: dimension, metric and the stored vectors. -/
structure FaissIndex where
  d : Nat
  metric : Metric
  vectors : List (List ℚ)
deriving DecidableEq

/-- An entry of `chunk_store`: `{text, metadata, index}`. -/
structure StoredChunk where
  text : String
  metadata : ChunkMeta
  index : Nat
deriving DecidableEq

/-- The `FAISSService` object state. -/
structure FAISSService where
  dimension : Nat
  index_type : String
  index : FaissIndex
  chunk_store : List StoredChunk
deriving DecidableEq

/-- An input chunk for `add_chunks`: a dict with `text`, an optional
`metadata` key (`chunk.get('metadata', {})`) and an `embedding`. -/
structure InChunk where
  text : String
  metadata : Option ChunkMeta
  embedding : List ℚ
deriving DecidableEq

/-- The empty metadata dict `{}`. -/
def emptyMeta : ChunkMeta := {}

/-- Errors raised by the service or its libraries: a shape error from
`numpy`/FAISS `add`, a FAISS dimension assertion, an out-of-range
`chunk_store[idx]`, a float division by zero in the score, or a missing
file on load. -/
inductive FsErr where
  | npShape
  | dimMismatch
  | indexErr
  | zeroDiv
  | fileNotFound
deriving DecidableEq

/-- `_create_index`: `IndexFlatIP` when `index_type == "cosine"`, else
`IndexFlatL2` (any other string, valid or not, falls to the default). -/
def create_index (dimension : Nat) (index_type : String) : FaissIndex :=
  if index_type = "cosine" then ⟨dimension, Metric.ip, []⟩ else ⟨dimension, Metric.l2, []⟩

/-- `FAISSService.__init__(dimension, index_type)`: no validation of
`index_type` is performed. -/
def mkFAISSService (dimension : Nat) (index_type : String) : FAISSService :=
  { dimension := dimension, index_type := index_type,
    index := create_index dimension index_type, chunk_store := [] }

/-- `add_chunks(chunks)`: an empty batch makes `np.array` 1-dimensional and
FAISS `add` rejects it; a ragged batch fails inside `np.array(...)`; a
rectangular batch whose width differs from the index dimension fails the
FAISS `add` assertion.  All three failures happen before any state is
mutated.  On success the vectors are appended to the index and the chunks
to `chunk_store`, each with position `start_idx + i`. -/
def add_chunks (s : FAISSService) (chunks : List InChunk) : Except FsErr FAISSService :=
  let embeddings := chunks.map InChunk.embedding
  match embeddings with
  | [] => Except.error FsErr.npShape
  | e0 :: _ =>
    if embeddings.all (fun e => e.length == e0.length) then
      if e0.length = s.index.d then
        let start_idx := s.chunk_store.length
        Except.ok
          { s with
            index := { s.index with vectors := s.index.vectors ++ embeddings },
            chunk_store := s.chunk_store ++ chunks.enum.map
              (fun p => { text := p.2.text, metadata := p.2.metadata.getD emptyMeta,
                          index := start_idx + p.1 }) }
      else Except.error FsErr.dimMismatch
    else Except.error FsErr.npShape

/-- Squared Euclidean distance, the value reported by `IndexFlatL2`. -/
def sqDist (q v : List ℚ) : ℚ :=
  (List.zipWith (fun a b => (a - b) ^ 2) q v).sum

/-- Inner product, the value reported by `IndexFlatIP`. -/
def innerProd (q v : List ℚ) : ℚ :=
  (List.zipWith (fun a b => a * b) q v).sum

/-- The per-vector value a flat index computes for a query. -/
def faissKey (m : Metric) (q v : List ℚ) : ℚ :=
  match m with
  | Metric.l2 => sqDist q v
  | Metric.ip => innerProd q v

/-- The order in which a flat index returns its results: ascending distance
for L2, descending inner product for IP. -/
def faissOrder (m : Metric) (a b : ℚ × Nat) : Prop :=
  match m with
  | Metric.l2 => a.1 ≤ b.1
  | Metric.ip => b.1 ≤ a.1

instance faissOrder.instDecidable (m : Metric) (a b : ℚ × Nat) :
    Decidable (faissOrder m a b) :=
  match m with
  | Metric.l2 => inferInstanceAs (Decidable (a.1 ≤ b.1))
  | Metric.ip => inferInstanceAs (Decidable (b.1 ≤ a.1))

/-- `index.search(q, k)` of a flat index: rank all stored vectors by the
metric and return `k` `(value, id)` columns, the slots beyond the number
of stored vectors carrying the sentinel id `-1` (their value slot is never
read by the service).  Ids are the insertion positions. -/
def faiss_search (idx : FaissIndex) (q : List ℚ) (k : Nat) : List (ℚ × Int) :=
  let scored := idx.vectors.enum.map (fun p => (faissKey idx.metric q p.2, p.1))
  let sorted := List.insertionSort (faissOrder idx.metric) scored
  let top := (sorted.take k).map (fun p => (p.1, (p.2 : Int)))
  top ++ List.replicate (k - top.length) (0, -1)

/-- A search result dict `{text, metadata, score, rank}`. -/
structure SearchResult where
  text : String
  metadata : ChunkMeta
  score : ℚ
  rank : Nat
deriving DecidableEq

/-- The result-building loop of `search`: enumerate the `(dist, idx)`
columns, skip sentinel ids, look the id up in `chunk_store` (an
out-of-range id is a Python `IndexError`; ids other than `-1` are never
negative, so `toNat` is exact on the reachable inputs), and score with
`1 / (1 + dist)` exactly when `index_type == "l2"` (a Python
`ZeroDivisionError` when `1 + dist == 0`) and with the raw value
otherwise.  `rank` is `i + 1` for the enumeration index `i`. -/
def buildResults (s : FAISSService) : List (ℚ × Int) → Nat → Except FsErr (List SearchResult)
  | [], _ => Except.ok []
  | (dist, idx) :: rest, i =>
    if idx ≠ -1 then
      match s.chunk_store[idx.toNat]? with
      | none => Except.error FsErr.indexErr
      | some chunk_data =>
        if s.index_type = "l2" ∧ 1 + dist = 0 then Except.error FsErr.zeroDiv
        else
          match buildResults s rest (i + 1) with
          | Except.error e => Except.error e
          | Except.ok rs =>
            Except.ok
              ({ text := chunk_data.text, metadata := chunk_data.metadata,
                 score := if s.index_type = "l2" then 1 / (1 + dist) else dist,
                 rank := i + 1 } :: rs)
    else buildResults s rest (i + 1)

/-- `search(query_embedding, k)`: FAISS asserts the query width equals the
index dimension, then the results are built from the returned columns. -/
def search (s : FAISSService) (query_embedding : List ℚ) (k : Nat) :
    Except FsErr (List SearchResult) :=
  if query_embedding.length = s.index.d then
    buildResults s (faiss_search s.index query_embedding k) 0
  else Except.error FsErr.dimMismatch

/-- A directory as touched by `save_index`/`load_index`: the two artifact
files `index.faiss` and `chunk_store.pkl`, each possibly absent. -/
structure SavedDir where
  indexFile : Option FaissIndex
  chunkFile : Option (List StoredChunk)
deriving DecidableEq

/-- `save_index(directory)`: write both artifacts (FAISS serialisation and
pickling round-trip exactly). -/
def save_index (s : FAISSService) : SavedDir :=
  ⟨some s.index, some s.chunk_store⟩

/-- `load_index(directory)`: `self.index = faiss.read_index(...)` runs
first, then `open(directory / "chunk_store.pkl")`.  A missing index file
raises before any mutation; a missing chunk-store file raises after
`self.index` has already been replaced.  The returned pair is the call's
outcome together with the service state after the call. -/
def load_index (s : FAISSService) (dir : SavedDir) : Except FsErr Unit × FAISSService :=
  match dir.indexFile with
  | none => (Except.error FsErr.fileNotFound, s)
  | some idx =>
    let s1 := { s with index := idx }
    match dir.chunkFile with
    | none => (Except.error FsErr.fileNotFound, s1)
    | some cs => (Except.ok (), { s1 with chunk_store := cs })

/-- States of a `FAISSService` obtained from the constructor by a sequence
of successful `add_chunks` calls. -/
inductive Reachable : FAISSService → Prop
  | fresh (dimension : Nat) (index_type : String) :
      Reachable (mkFAISSService dimension index_type)
  | add {s s' : FAISSService} {cs : List InChunk} :
      Reachable s → add_chunks s cs = Except.ok s' → Reachable s'

/-! ### Claim C1 -/

/-- A well-formed config (`chunk_overlap < chunk_size`) for the C1
failing input. -/
def cfgC1 : ChunkingConfig :=
  { chunk_size := 5, chunk_overlap := 2, min_chunk_size := 1, max_chunk_size := 2000 }

/-- Claim C1: "for every well-formed input the chunking pipeline returns a
list of chunks normally and never raises."  The code contradicts this: on
the eight-character text `abcdefgh` with no sentence markers and no
headers, the first sliding window of `_create_basic_chunks` finds no
`'.'`, `'!'`, `'?'` or `'\n'`, and `max()` over the empty generator of
non-`-1` break points raises `ValueError` (the following
`if natural_break != -1` test, evidently meant to handle this case by
cutting at `chunk_size`, is unreachable).  The pipeline therefore raises
for a well-formed input. -/
theorem claim_C1_pipeline_raises :
    cfgC1.chunk_overlap < cfgC1.chunk_size ∧
      create_structured_chunks cfgC1 "abcdefgh".toList [] 100 =
        Except.error ChunkErr.valueError := by
  decide

/-! ### Claim C2 -/

/-- Config for the first C2 counterexample scenario. -/
def cfgC2 : ChunkingConfig := { min_chunk_size := 5, max_chunk_size := 8 }

/-- First input chunk of the C2 counterexample (length 6, within bounds). -/
def chunkC2a : Chunk := ⟨"abcdef".toList, 0, 6, {}⟩

/-- Second input chunk of the C2 counterexample (length 3, undersized). -/
def chunkC2b : Chunk := ⟨"xyz".toList, 6, 9, {}⟩

/-- Config for the second C2 counterexample scenario (well-formed:
`chunk_overlap = 0 < chunk_size`; with zero overlap the basic chunker
terminates, so the oversized branch can return). -/
def cfgC2b : ChunkingConfig :=
  { chunk_size := 4, chunk_overlap := 0, min_chunk_size := 2, max_chunk_size := 5 }

/-- An oversized input chunk (length 7 > `max_chunk_size = 5`) for the
second C2 counterexample scenario. -/
def chunkC2c : Chunk := ⟨"ab.cdef".toList, 0, 7, {}⟩

/-- What `_normalize_chunk_sizes` produces from `[chunkC2c]` under
`cfgC2b`: the two re-split pieces, followed by the original oversized
chunk itself (the oversized branch has no `continue`). -/
def outC2b : List Chunk :=
  [⟨"ab.".toList, 0, 3, { type := some "basic_chunk" }⟩,
   ⟨"cdef".toList, 3, 7, { type := some "basic_chunk" }⟩,
   chunkC2c]

/-- Claim C2 is false as stated, on both sides of the size interval.
Undersized: normalizing `["abcdef", "xyz"]` with `min_chunk_size = 5`,
`max_chunk_size = 8` keeps the undersized three-character chunk standalone
(merging would give length 10 > 8), so the output contains an undersized
chunk that is not the first chunk of the document.  Oversized: with the
well-formed config `chunk_size = 4, chunk_overlap = 0, max_chunk_size = 5`
the basic chunker terminates, and normalizing the single oversized chunk
`"ab.cdef"` returns its two re-split pieces followed by the unchanged
original length-7 chunk — an output chunk above `max_chunk_size`, because
the oversized branch appends the original after `extend` (missing
`continue`). -/
theorem claim_C2_counterexample :
    (normalize_chunk_sizes cfgC2 10 [chunkC2a, chunkC2b] =
        Except.ok [chunkC2a, chunkC2b] ∧
      chunkC2b.text.length < cfgC2.min_chunk_size ∧
      cfgC2.min_chunk_size ≤ chunkC2a.text.length) ∧
    (cfgC2b.chunk_overlap < cfgC2b.chunk_size ∧
      normalize_chunk_sizes cfgC2b 10 [chunkC2c] = Except.ok outC2b ∧
      cfgC2b.max_chunk_size < chunkC2c.text.length ∧
      chunkC2c ∈ outC2b) := by
  decide

/-- A chunk produced by the oversized branch of `_normalize_chunk_sizes`:
one of the basic re-split pieces of an over-`max_chunk_size` input chunk,
with the original chunk's metadata merged in. -/
def isResplitSub (cfg : ChunkingConfig) (fuel : Nat) (chunks0 : List Chunk)
    (c : Chunk) : Prop :=
  ∃ c0, c0 ∈ chunks0 ∧ cfg.max_chunk_size < c0.text.length ∧
    ∃ subs, create_basic_chunks cfg c0.text fuel = Except.ok subs ∧
      ∃ sc, sc ∈ subs ∧ c = { sc with metadata := metaUpdate sc.metadata c0.metadata }

/-- The two ways a chunk escapes the size discipline in the output of
`_normalize_chunk_sizes`: it is an input chunk that already exceeded
`max_chunk_size`, appended unchanged because the oversized branch lacks a
`continue`, or it is one of the re-split pieces of such a chunk (these
are `extend`ed directly, bypassing both the upper bound and the
undersized-merge logic). -/
def normEscape (cfg : ChunkingConfig) (fuel : Nat) (chunks0 : List Chunk)
    (c : Chunk) : Prop :=
  (c ∈ chunks0 ∧ cfg.max_chunk_size < c.text.length) ∨ isResplitSub cfg fuel chunks0 c

/-- The adjacency condition actually enforced by `_normalize_chunk_sizes`:
an undersized chunk may follow another chunk only when merging the two
(with the single-space separator) would have exceeded `max_chunk_size`,
or when it entered the output through the oversized branch. -/
def normAdjRel (cfg : ChunkingConfig) (fuel : Nat) (chunks0 : List Chunk)
    (a b : Chunk) : Prop :=
  b.text.length < cfg.min_chunk_size →
    cfg.max_chunk_size < a.text.length + 1 + b.text.length ∨
      normEscape cfg fuel chunks0 b

theorem chain'_of_forall_right {α : Type} {R : α → α → Prop} :
    ∀ l : List α, (∀ b ∈ l, ∀ a, R a b) → List.Chain' R l := by
  intro l
  induction l with
  | nil => intro _; exact List.chain'_nil
  | cons x xs ih =>
    intro h
    refine List.chain'_cons'.mpr ⟨?_, ih (fun b hb a => h b (List.mem_cons_of_mem _ hb) a)⟩
    intro y hy
    cases xs with
    | nil => simp at hy
    | cons z zs =>
      simp only [List.head?_cons, Option.mem_def, Option.some_inj] at hy
      subst hy
      exact h z (List.mem_cons_of_mem _ (List.mem_cons_self _ _)) x

theorem mem_of_head?_eq {α : Type} {l : List α} {a : α} (h : l.head? = some a) : a ∈ l := by
  cases l with
  | nil => simp at h
  | cons x xs =>
    simp only [List.head?_cons, Option.some_inj] at h
    rw [← h]
    exact List.mem_cons_self _ _

theorem normalize_chunk_sizesAux_escape (cfg : ChunkingConfig) (fuel : Nat)
    (chunks0 : List Chunk) :
    ∀ pending acc out : List Chunk,
      (∀ c ∈ pending, c ∈ chunks0) →
      (∀ c ∈ acc, cfg.max_chunk_size < c.text.length → normEscape cfg fuel chunks0 c) →
      List.Chain' (normAdjRel cfg fuel chunks0) acc →
      (∀ p, acc.getLast? = some p → p.text.length < cfg.min_chunk_size →
        ∀ x, acc.dropLast.getLast? = some x →
          cfg.max_chunk_size < x.text.length + 1 + p.text.length) →
      normalize_chunk_sizesAux cfg fuel pending acc = Except.ok out →
      (∀ c ∈ out, cfg.max_chunk_size < c.text.length → normEscape cfg fuel chunks0 c) ∧
      List.Chain' (normAdjRel cfg fuel chunks0) out := by
  intro pending
  induction pending with
  | nil =>
    intro acc out _ hU hch _ hok
    have hout : out = acc := by
      rw [normalize_chunk_sizesAux] at hok
      injection hok with h
      exact h.symm
    subst hout
    exact ⟨hU, hch⟩
  | cons c rest ih =>
    intro acc out hpend hU hch hL hok
    have hc0 : c ∈ chunks0 := hpend c (List.mem_cons_self _ _)
    have hrest : ∀ x ∈ rest, x ∈ chunks0 := fun x hx => hpend x (List.mem_cons_of_mem _ hx)
    rw [normalize_chunk_sizesAux] at hok
    by_cases hbig : c.text.length > cfg.max_chunk_size
    · rw [if_pos hbig] at hok
      cases hsub : create_basic_chunks cfg c.text fuel with
      | error e =>
        rw [hsub] at hok
        exact absurd hok (by simp)
      | ok subs =>
        rw [hsub] at hok
        dsimp only at hok
        have hesc_subs : ∀ x ∈ subs.map
            (fun sc => { sc with metadata := metaUpdate sc.metadata c.metadata }),
            normEscape cfg fuel chunks0 x := by
          intro x hx
          obtain ⟨sc, hsc, hfx⟩ := List.mem_map.mp hx
          exact Or.inr ⟨c, hc0, hbig, subs, hsub, sc, hsc, hfx.symm⟩
        have hesc_c : normEscape cfg fuel chunks0 c := Or.inl ⟨hc0, hbig⟩
        refine ih _ out hrest ?_ ?_ ?_ hok
        · intro x hx hxl
          rcases List.mem_append.mp hx with hx1 | hx2
          · rcases List.mem_append.mp hx1 with hx3 | hx4
            · exact hU x hx3 hxl
            · exact hesc_subs x hx4
          · rw [List.mem_singleton.mp hx2]
            exact hesc_c
        · rw [List.append_assoc]
          refine List.chain'_append.mpr ⟨hch, ?_, ?_⟩
          · apply chain'_of_forall_right
            intro b hb a _
            right
            rcases List.mem_append.mp hb with hb1 | hb2
            · exact hesc_subs b hb1
            · rw [List.mem_singleton.mp hb2]; exact hesc_c
          · intro x hx y hy
            intro _
            right
            have hymem := mem_of_head?_eq (Option.mem_def.mp hy)
            rcases List.mem_append.mp hymem with hy1 | hy2
            · exact hesc_subs y hy1
            · rw [List.mem_singleton.mp hy2]; exact hesc_c
        · intro p hp hpsmall x hx
          rw [List.getLast?_concat] at hp
          have hpc : p = c := by
            injection hp with h
            exact h.symm
          subst hpc
          omega
    · rw [if_neg hbig] at hok
      by_cases hsmall : c.text.length < cfg.min_chunk_size ∧ acc ≠ []
      · rw [if_pos hsmall] at hok
        obtain ⟨hlt, hne⟩ := hsmall
        cases hl : acc.getLast? with
        | none => exact absurd (List.getLast?_eq_none_iff.mp hl) hne
        | some prev =>
          rw [hl] at hok
          dsimp only at hok
          have hprev_eq : acc.getLast hne = prev := by
            have hgl := List.getLast?_eq_getLast acc hne
            rw [hl] at hgl
            exact (Option.some_inj.mp hgl).symm
          have hacc_decomp : acc.dropLast ++ [prev] = acc := by
            rw [← hprev_eq]
            exact List.dropLast_concat_getLast hne
          have hcomb_len : (prev.text ++ ' ' :: c.text).length =
              prev.text.length + 1 + c.text.length := by
            simp [List.length_append]
            omega
          have hplen : ({ prev with text := prev.text ++ ' ' :: c.text, end_idx := c.end_idx } : Chunk).text.length = (prev.text ++ ' ' :: c.text).length := rfl
          by_cases hfit : (prev.text ++ ' ' :: c.text).length ≤ cfg.max_chunk_size
          · rw [if_pos hfit] at hok
            have hch_parts := List.chain'_append.mp (hacc_decomp ▸ hch)
            refine ih _ out hrest ?_ ?_ ?_ hok
            · intro x hx hxl
              rcases List.mem_append.mp hx with hx1 | hx2
              · exact hU x (List.dropLast_subset _ hx1) hxl
              · exfalso
                rw [List.mem_singleton.mp hx2] at hxl
                omega
            · refine List.chain'_append.mpr ⟨hch_parts.1, List.chain'_singleton _, ?_⟩
              intro x hx y hy
              have hyv : y = { prev with text := prev.text ++ ' ' :: c.text, end_idx := c.end_idx } := by
                have h2 := Option.mem_def.mp hy
                simp only [List.head?_cons, Option.some_inj] at h2
                exact h2.symm
              subst hyv
              intro hlt'
              left
              have hprevlt : prev.text.length < cfg.min_chunk_size := by omega
              have hmx := hL prev hl hprevlt x (Option.mem_def.mp hx)
              omega
            · intro p hp hpsmall x hx
              rw [List.getLast?_concat] at hp
              have hpc : p = { prev with text := prev.text ++ ' ' :: c.text, end_idx := c.end_idx } := by
                injection hp with h
                exact h.symm
              subst hpc
              rw [List.dropLast_concat] at hx
              have hprevlt : prev.text.length < cfg.min_chunk_size := by omega
              have hmx := hL prev hl hprevlt x hx
              omega
          · rw [if_neg hfit] at hok
            refine ih _ out hrest ?_ ?_ ?_ hok
            · intro x hx hxl
              rcases List.mem_append.mp hx with hx1 | hx2
              · exact hU x hx1 hxl
              · exfalso
                rw [List.mem_singleton.mp hx2] at hxl
                omega
            · refine List.chain'_append.mpr ⟨hch, List.chain'_singleton _, ?_⟩
              intro x hx y hy
              have hyv : y = c := by
                have h2 := Option.mem_def.mp hy
                simp only [List.head?_cons, Option.some_inj] at h2
                exact h2.symm
              subst hyv
              intro _
              left
              have hxv : x = prev := by
                have h2 := Option.mem_def.mp hx
                rw [hl] at h2
                exact (Option.some_inj.mp h2).symm
              subst hxv
              omega
            · intro p hp hpsmall x hx
              rw [List.getLast?_concat] at hp
              have hpc : p = c := by
                injection hp with h
                exact h.symm
              subst hpc
              rw [List.dropLast_concat] at hx
              have hxv : x = prev := by
                rw [hl] at hx
                exact (Option.some_inj.mp hx).symm
              subst hxv
              omega
      · rw [if_neg hsmall] at hok
        refine ih _ out hrest ?_ ?_ ?_ hok
        · intro x hx hxl
          rcases List.mem_append.mp hx with hx1 | hx2
          · exact hU x hx1 hxl
          · exfalso
            rw [List.mem_singleton.mp hx2] at hxl
            omega
        · refine List.chain'_append.mpr ⟨hch, List.chain'_singleton _, ?_⟩
          intro x hx y hy
          have hyv : y = c := by
            have h2 := Option.mem_def.mp hy
            simp only [List.head?_cons, Option.some_inj] at h2
            exact h2.symm
          subst hyv
          intro hlt'
          exfalso
          apply hsmall
          refine ⟨hlt', ?_⟩
          intro haccnil
          rw [haccnil] at hx
          simp at hx
        · intro p hp hpsmall x hx
          rw [List.getLast?_concat] at hp
          have hpc : p = c := by
            injection hp with h
            exact h.symm
          subst hpc
          rw [List.dropLast_concat] at hx
          exfalso
          apply hsmall
          refine ⟨hpsmall, ?_⟩
          intro haccnil
          rw [haccnil] at hx
          simp at hx

/-- Claim C2, amended: whenever `_normalize_chunk_sizes` returns at all,
the size invariant holds with exactly these exceptions.  Every output
chunk whose text exceeds `max_chunk_size` is an input chunk that already
exceeded `max_chunk_size` — kept in the output unchanged, after its
re-split pieces, because the oversized branch lacks a `continue` — or
itself one of those re-split pieces (possible when `chunk_size` exceeds
`max_chunk_size`).  And every output chunk whose text is shorter than
`min_chunk_size` is the very first output chunk, or one whose single-space
merge with the preceding output chunk would have exceeded
`max_chunk_size`, or a chunk that entered through the oversized branch
(re-split pieces and the kept original bypass the merge logic). -/
theorem claim_C2_normalize_size_exceptions (cfg : ChunkingConfig) (fuel : Nat)
    (chunks out : List Chunk)
    (hok : normalize_chunk_sizes cfg fuel chunks = Except.ok out) :
    (∀ c ∈ out, cfg.max_chunk_size < c.text.length → normEscape cfg fuel chunks c) ∧
    List.Chain' (normAdjRel cfg fuel chunks) out :=
  normalize_chunk_sizesAux_escape cfg fuel chunks chunks [] out (fun c hc => hc)
    (by simp) List.chain'_nil (by simp) hok

/-- Witness for the amended C2 theorem at the concrete oversized input:
the kept original escapes the upper bound as an unchanged input chunk and
the re-split pieces carry the escape disjunct. -/
theorem claim_C2_witness :
    (∀ c ∈ outC2b, cfgC2b.max_chunk_size < c.text.length →
      normEscape cfgC2b 10 [chunkC2c] c) ∧
    List.Chain' (normAdjRel cfgC2b 10 [chunkC2c]) outC2b :=
  claim_C2_normalize_size_exceptions cfgC2b 10 [chunkC2c] outC2b (by decide)

/-! ### Claim C6 -/

theorem get_chunk_hierarchyAux_spec (curpos : Nat) :
    ∀ (l : List Header) (lvl : Nat),
      List.Chain' (fun a b => b.level < a.level) (get_chunk_hierarchyAux curpos lvl l) ∧
      ∀ e ∈ get_chunk_hierarchyAux curpos lvl l, e.position < curpos ∧ e.level < lvl := by
  intro l
  induction l with
  | nil => intro lvl; exact ⟨List.chain'_nil, by simp [get_chunk_hierarchyAux]⟩
  | cons h rest ih =>
    intro lvl
    rw [get_chunk_hierarchyAux]
    by_cases hcond : h.position < curpos ∧ h.level < lvl
    · rw [if_pos hcond]
      obtain ⟨ihc, ihm⟩ := ih h.level
      constructor
      · refine List.chain'_cons'.mpr ⟨?_, ihc⟩
        intro y hy
        have hmem : y ∈ get_chunk_hierarchyAux curpos h.level rest := by
          cases hgl : get_chunk_hierarchyAux curpos h.level rest with
          | nil => rw [hgl] at hy; simp at hy
          | cons z zs =>
            rw [hgl] at hy
            simp only [List.head?_cons, Option.mem_def, Option.some_inj] at hy
            subst hy
            exact List.mem_cons_self _ _
        exact (ihm y hmem).2
      · intro e he
        rcases List.mem_cons.mp he with he1 | he2
        · rw [he1]; exact hcond
        · obtain ⟨hp, hl'⟩ := ihm e he2
          exact ⟨hp, hl'.trans hcond.2⟩
    · rw [if_neg hcond]
      exact ih lvl

theorem get_chunk_hierarchyH_spec (cur : Header) (headers : List Header) :
    List.Chain' (fun a b => a.level < b.level) (get_chunk_hierarchyH cur headers) ∧
    ∀ e ∈ get_chunk_hierarchyH cur headers, e.position < cur.position := by
  obtain ⟨hc, hm⟩ := get_chunk_hierarchyAux_spec cur.position headers.reverse cur.level
  constructor
  · rw [get_chunk_hierarchyH, List.chain'_reverse]
    exact List.Chain'.imp (fun a b hab => hab) hc
  · intro e he
    rw [get_chunk_hierarchyH, List.mem_reverse] at he
    exact (hm e he).1

theorem split_on_headersAux_hierarchy (text : List Char) (all : List Header) :
    ∀ (l : List Header) (c : Chunk), c ∈ split_on_headersAux text all l →
      ∃ h : Header,
        c.metadata.header = some h.text ∧
        c.metadata.level = some h.level ∧
        c.metadata.hierarchy = some ((get_chunk_hierarchyH h all).map Header.text) ∧
        c.start_idx = (h.position : Int) := by
  intro l
  induction l with
  | nil => intro c hc; simp [split_on_headersAux] at hc
  | cons h rest ih =>
    intro c hc
    simp only [split_on_headersAux] at hc
    split at hc
    · rcases List.mem_cons.mp hc with hc1 | hc2
      · subst hc1
        exact ⟨h, rfl, rfl, rfl, rfl⟩
      · exact ih c hc2
    · exact ih c hc

/-- Claim C6: every chunk produced by `_split_on_headers` carries a
`hierarchy` drawn from a header chain whose levels strictly increase from
the first entry to the last and whose positions all strictly precede the
chunk's own heading position (which is the chunk's `start_idx`). -/
theorem claim_C6_hierarchy_ordered (text : List Char) (headers : List Header) (c : Chunk)
    (hc : c ∈ split_on_headers text headers) :
    ∃ (h : Header) (hch : List Header),
      c.metadata.header = some h.text ∧
      c.metadata.hierarchy = some (hch.map Header.text) ∧
      List.Chain' (fun a b => a.level < b.level) hch ∧
      (∀ e ∈ hch, e.position < h.position) ∧
      c.start_idx = (h.position : Int) := by
  rw [split_on_headers] at hc
  obtain ⟨h, hh, _, hhier, hstart⟩ := split_on_headersAux_hierarchy text _ _ c hc
  obtain ⟨hchain, hpos⟩ := get_chunk_hierarchyH_spec h
    (List.insertionSort (fun a b => a.position ≤ b.position) headers)
  exact ⟨h, get_chunk_hierarchyH h _, hh, hhier, hchain, hpos, hstart⟩

/-- Text of the C6 witness document. -/
def textC6 : List Char := "# A\n\n# B\nrest".toList

/-- Headers of the C6 witness document (deliberately given out of order;
`_split_on_headers` sorts them). -/
def headersC6 : List Header := [⟨"B", 2, 5⟩, ⟨"A", 1, 0⟩]

/-- The chunk `_split_on_headers` produces for header `B` of the witness
document. -/
def chunkC6 : Chunk :=
  ⟨"# B\nrest".toList, 5, 13,
    { header := some "B", level := some 2, hierarchy := some ["A"] }⟩

/-- Witness for the C6 theorem at a concrete document. -/
theorem claim_C6_witness :
    ∃ (h : Header) (hch : List Header),
      chunkC6.metadata.header = some h.text ∧
      chunkC6.metadata.hierarchy = some (hch.map Header.text) ∧
      List.Chain' (fun a b => a.level < b.level) hch ∧
      (∀ e ∈ hch, e.position < h.position) ∧
      chunkC6.start_idx = (h.position : Int) :=
  claim_C6_hierarchy_ordered textC6 headersC6 chunkC6 (by decide)

/-! ### Claim C7 -/

/-- Claim C7, amended: loading a directory missing either artifact does
raise an error; when `index.faiss` is missing nothing is replaced, but
when `index.faiss` is present and `chunk_store.pkl` is missing the index
is replaced while `chunk_store` keeps its old value — a partial state,
contrary to the original claim. -/
theorem claim_C7_load_missing_raises (s : FAISSService) (dir : SavedDir)
    (h : dir.indexFile = none ∨ dir.chunkFile = none) :
    (∃ e, (load_index s dir).1 = Except.error e) ∧
    (dir.indexFile = none → (load_index s dir).2 = s) ∧
    (∀ idx, dir.indexFile = some idx → dir.chunkFile = none →
      (load_index s dir).2 = { s with index := idx }) := by
  obtain ⟨fi, fc⟩ := dir
  cases fi with
  | none => exact ⟨⟨FsErr.fileNotFound, rfl⟩, fun _ => rfl, fun idx hidx => by simp at hidx⟩
  | some idx0 =>
    cases fc with
    | none =>
      refine ⟨⟨FsErr.fileNotFound, rfl⟩, by simp, ?_⟩
      intro idx hidx _
      simp only [Option.some_inj] at hidx
      subst hidx
      rfl
    | some cs0 => rcases h with h1 | h1 <;> simp at h1

/-- Service state for the C7 counterexample. -/
def sC7 : FAISSService :=
  { dimension := 1, index_type := "l2", index := ⟨1, Metric.l2, [[1]]⟩,
    chunk_store := [⟨"a", emptyMeta, 0⟩] }

/-- Directory for the C7 counterexample: the index artifact is present but
the chunk-store artifact is missing. -/
def dirC7 : SavedDir := ⟨some ⟨1, Metric.l2, [[5]]⟩, none⟩

/-- Claim C7 is false as stated: loading a directory that has `index.faiss`
but no `chunk_store.pkl` raises, yet leaves the service with the index
replaced and the chunk store untouched — exactly the partial state the
claim rules out. -/
theorem claim_C7_counterexample :
    (load_index sC7 dirC7).1 = Except.error FsErr.fileNotFound ∧
    (load_index sC7 dirC7).2.index ≠ sC7.index ∧
    (load_index sC7 dirC7).2.chunk_store = sC7.chunk_store := by
  decide

/-- Witness for the amended C7 theorem at a concrete input. -/
theorem claim_C7_witness :
    (∃ e, (load_index sC7 dirC7).1 = Except.error e) ∧
    (dirC7.indexFile = none → (load_index sC7 dirC7).2 = sC7) ∧
    (∀ idx, dirC7.indexFile = some idx → dirC7.chunkFile = none →
      (load_index sC7 dirC7).2 = { sC7 with index := idx }) :=
  claim_C7_load_missing_raises sC7 dirC7 (Or.inr rfl)

/-! ### Claim C8 -/

/-- Claim C8: in every service reachable from the constructor by successful
`add_chunks` calls, `chunk_store` has exactly as many entries as the index
has vectors, and the stored `index` position fields are `0, 1, ...,
len - 1` in insertion order. -/
theorem claim_C8_store_positions (s : FAISSService) (hs : Reachable s) :
    s.chunk_store.length = s.index.vectors.length ∧
    ∀ i, (h : i < s.chunk_store.length) → (s.chunk_store.get ⟨i, h⟩).index = i := by
  induction hs with
  | fresh dim ity =>
    constructor
    · rw [mkFAISSService, create_index]
      split <;> rfl
    · intro i h
      rw [mkFAISSService] at h
      simp at h
  | add hs' heq ih =>
    obtain ⟨hlen, hidx⟩ := ih
    rename_i s0 s' cs
    rw [add_chunks] at heq
    cases hemb : cs.map InChunk.embedding with
    | nil => rw [hemb] at heq; exact absurd heq (by simp)
    | cons e0 es =>
      rw [hemb] at heq
      dsimp only at heq
      by_cases hall : (e0 :: es).all (fun e => e.length == e0.length)
      · rw [if_pos hall] at heq
        by_cases hd : e0.length = s0.index.d
        · rw [if_pos hd] at heq
          have hs' : s' =
              { s0 with
                index := { s0.index with vectors := s0.index.vectors ++ e0 :: es },
                chunk_store := s0.chunk_store ++ cs.enum.map
                  (fun p => { text := p.2.text, metadata := p.2.metadata.getD emptyMeta,
                              index := s0.chunk_store.length + p.1 }) } := by
            cases heq
            rfl
          subst hs'
          have hcs_len : (e0 :: es).length = cs.length := by
            rw [← hemb, List.length_map]
          constructor
          · simp only [List.length_append, List.length_map, List.enum_length]
            omega
          · intro i h
            simp only [List.get_eq_getElem]
            by_cases hi : i < s0.chunk_store.length
            · rw [List.getElem_append_left hi]
              exact hidx i hi
            · push_neg at hi
              have h2 : i < s0.chunk_store.length + cs.length := by
                simp only [List.length_append, List.length_map, List.enum_length] at h
                omega
              rw [List.getElem_append_right hi, List.getElem_map, List.getElem_enum]
              show s0.chunk_store.length + (i - s0.chunk_store.length) = i
              omega
        · rw [if_neg hd] at heq; exact absurd heq (by simp)
      · rw [if_neg hall] at heq; exact absurd heq (by simp)

/-- The service state reached from a fresh dimension-1 service by one
successful `add_chunks` call with a two-chunk batch. -/
def sC8 : FAISSService :=
  { dimension := 1, index_type := "l2", index := ⟨1, Metric.l2, [[2], [3]]⟩,
    chunk_store := [⟨"c", emptyMeta, 0⟩, ⟨"d", emptyMeta, 1⟩] }

/-- Witness for the C8 theorem after a successful two-chunk `add_chunks`
call: the store holds two entries, as many as the index holds vectors,
with position fields `0` and `1`. -/
theorem claim_C8_witness :
    sC8.chunk_store.length = sC8.index.vectors.length ∧
      ∀ i, (h : i < sC8.chunk_store.length) → (sC8.chunk_store.get ⟨i, h⟩).index = i :=
  claim_C8_store_positions sC8
    (@Reachable.add (mkFAISSService 1 "l2") sC8 [⟨"c", none, [2]⟩, ⟨"d", none, [3]⟩]
      (Reachable.fresh 1 "l2") (by decide))

/-! ### Claim C9 -/

/-- Claim C9: a batch containing an embedding whose length differs from the
service's dimension makes `add_chunks` fail with an error (a ragged batch
fails in `np.array`, a rectangular one in the FAISS `add` dimension
assertion), and in the source both failures happen before any mutation of
the index or of `chunk_store`. -/
theorem claim_C9_add_chunks_dim_mismatch (s : FAISSService) (chunks : List InChunk)
    (c : InChunk) (hdim : s.index.d = s.dimension) (hc : c ∈ chunks)
    (hlen : c.embedding.length ≠ s.dimension) :
    ∃ e, add_chunks s chunks = Except.error e := by
  rw [add_chunks]
  cases hemb : chunks.map InChunk.embedding with
  | nil =>
    rw [List.map_eq_nil_iff] at hemb
    subst hemb
    simp at hc
  | cons e0 es =>
    dsimp only
    by_cases hall : (e0 :: es).all (fun e => e.length == e0.length)
    · rw [if_pos hall]
      have hmem : c.embedding ∈ e0 :: es := by
        rw [← hemb]
        exact List.mem_map_of_mem InChunk.embedding hc
      have hce : c.embedding.length = e0.length := by
        have h2 := List.all_eq_true.mp hall c.embedding hmem
        simpa using h2
      have : e0.length ≠ s.index.d := by
        rw [hdim, ← hce]
        exact hlen
      rw [if_neg this]
      exact ⟨FsErr.dimMismatch, rfl⟩
    · rw [if_neg hall]
      exact ⟨FsErr.npShape, rfl⟩

/-- Witness for the C9 theorem: adding a length-1 embedding to a dimension-2
service fails. -/
theorem claim_C9_witness :
    ∃ e, add_chunks (mkFAISSService 2 "l2") [⟨"x", none, [1]⟩] = Except.error e :=
  claim_C9_add_chunks_dim_mismatch (mkFAISSService 2 "l2") [⟨"x", none, [1]⟩]
    ⟨"x", none, [1]⟩ (by decide) (List.mem_cons_self _ _) (by decide)

/-! ### Claim C3 -/

theorem buildResults_congr (s t : FAISSService)
    (hcs : s.chunk_store = t.chunk_store) (hty : s.index_type = t.index_type) :
    ∀ (pairs : List (ℚ × Int)) (i : Nat), buildResults s pairs i = buildResults t pairs i := by
  intro pairs
  induction pairs with
  | nil => intro i; rfl
  | cons p rest ih =>
    intro i
    obtain ⟨dist, idx⟩ := p
    rw [buildResults, buildResults, hcs, hty, ih (i + 1)]

/-- Claim C3: saving a populated index and loading it into a fresh service
of the same dimension and metric reproduces identical `search` results
(text, metadata, score and rank) for every query vector and every `k`. -/
theorem claim_C3_save_load_roundtrip (s : FAISSService) (dim : Nat) (ity : String)
    (q : List ℚ) (k : Nat) (_hdim : dim = s.dimension) (h2 : ity = s.index_type) :
    (load_index (mkFAISSService dim ity) (save_index s)).1 = Except.ok () ∧
    search (load_index (mkFAISSService dim ity) (save_index s)).2 q k = search s q k := by
  refine ⟨rfl, ?_⟩
  show search { dimension := dim, index_type := ity, index := s.index, chunk_store := s.chunk_store } q k = search s q k
  rw [search, search]
  dsimp only
  by_cases hq : q.length = s.index.d
  · rw [if_pos hq, if_pos hq]
    exact buildResults_congr
      { dimension := dim, index_type := ity, index := s.index, chunk_store := s.chunk_store }
      s rfl h2 _ 0
  · rw [if_neg hq, if_neg hq]

/-- Populated service for the C3 witness. -/
def sC3 : FAISSService :=
  { dimension := 1, index_type := "l2", index := ⟨1, Metric.l2, [[1]]⟩,
    chunk_store := [⟨"t", emptyMeta, 0⟩] }

/-- Witness for the C3 theorem at a concrete populated index. -/
theorem claim_C3_witness :
    (load_index (mkFAISSService 1 "l2") (save_index sC3)).1 = Except.ok () ∧
    search (load_index (mkFAISSService 1 "l2") (save_index sC3)).2 [1] 1 =
      search sC3 [1] 1 :=
  claim_C3_save_load_roundtrip sC3 1 "l2" [1] 1 rfl rfl

/-! ### Claim C10 -/

theorem sqDist_nonneg : ∀ q v : List ℚ, 0 ≤ sqDist q v
  | [], _ => by simp [sqDist]
  | _ :: _, [] => by simp [sqDist]
  | a :: q, b :: v => by
    rw [sqDist, List.zipWith_cons_cons, List.sum_cons]
    have hrec := sqDist_nonneg q v
    rw [sqDist] at hrec
    exact add_nonneg (sq_nonneg _) hrec

theorem faiss_search_l2_nonneg (idx : FaissIndex) (hm : idx.metric = Metric.l2)
    (q : List ℚ) (k : Nat) :
    ∀ p ∈ faiss_search idx q k, p.2 ≠ -1 → 0 ≤ p.1 := by
  intro p hp hne
  rw [faiss_search] at hp
  rcases List.mem_append.mp hp with htop | hpad
  · obtain ⟨x, hx, hfx⟩ := List.mem_map.mp htop
    have hx2 : x ∈ List.insertionSort (faissOrder idx.metric)
        (idx.vectors.enum.map (fun p => (faissKey idx.metric q p.2, p.1))) :=
      List.mem_of_mem_take hx
    rw [List.mem_insertionSort] at hx2
    obtain ⟨e, _, hge⟩ := List.mem_map.mp hx2
    have hx1 : 0 ≤ x.1 := by
      rw [← hge, hm]
      exact sqDist_nonneg q e.2
    rw [← hfx]
    exact hx1
  · have hpval := List.eq_of_mem_replicate hpad
    rw [hpval]

theorem buildResults_raw_vs_l2 (s : FAISSService) (hty : s.index_type ≠ "l2") :
    ∀ (pairs : List (ℚ × Int)) (i : Nat), (∀ p ∈ pairs, p.2 ≠ -1 → 0 ≤ p.1) →
      buildResults { s with index_type := "l2" } pairs i =
        Except.map (List.map (fun r => { r with score := 1 / (1 + r.score) }))
          (buildResults s pairs i) := by
  intro pairs
  induction pairs with
  | nil => intro i _; rfl
  | cons p rest ih =>
    intro i hnn
    obtain ⟨dist, idx⟩ := p
    have hrest : ∀ p ∈ rest, p.2 ≠ -1 → 0 ≤ p.1 :=
      fun p hp => hnn p (List.mem_cons_of_mem _ hp)
    rw [buildResults, buildResults]
    dsimp only
    by_cases hidx : idx ≠ -1
    · rw [if_pos hidx, if_pos hidx]
      cases hcd : s.chunk_store[idx.toNat]? with
      | none => rfl
      | some chunk_data =>
        dsimp only
        have hd : (0 : ℚ) ≤ dist := hnn (dist, idx) (List.mem_cons_self _ _) hidx
        have hz : ¬(1 + dist = 0) := by
          intro hcontra
          nlinarith
        rw [if_neg (fun hcontra => hz hcontra.2),
          if_neg (fun hcontra : s.index_type = "l2" ∧ 1 + dist = 0 => hty hcontra.1)]
        rw [ih (i + 1) hrest]
        cases buildResults s rest (i + 1) with
        | error e => rfl
        | ok rs =>
          rw [Except.map, Except.map]
          dsimp only [List.map]
          rw [if_pos rfl, if_neg hty]
    · rw [if_neg hidx, if_neg hidx]
      exact ih (i + 1) hrest

/-- Claim C10, amended: any `index_type` other than `"cosine"` is accepted
without validation and produces an L2 flat index; however, such a service
is not indistinguishable from a `metric="l2"` service: because `search`
tests `index_type == "l2"` separately, any string outside
`{"l2", "cosine"}` yields raw L2 distances as scores, and the
corresponding `"l2"` service reports `1 / (1 + score)` instead. -/
theorem claim_C10_metric_fallback :
    (∀ (dimension : Nat) (ity : String), ity ≠ "cosine" →
      create_index dimension ity = ⟨dimension, Metric.l2, []⟩) ∧
    (∀ (s : FAISSService) (q : List ℚ) (k : Nat),
      s.index_type ≠ "l2" → s.index_type ≠ "cosine" → s.index.metric = Metric.l2 →
      search { s with index_type := "l2" } q k =
        Except.map (List.map (fun r => { r with score := 1 / (1 + r.score) }))
          (search s q k)) := by
  constructor
  · intro dimension ity hne
    rw [create_index, if_neg hne]
  · intro s q k hty1 _ hmet
    rw [search, search]
    dsimp only
    by_cases hq : q.length = s.index.d
    · rw [if_pos hq, if_pos hq]
      exact buildResults_raw_vs_l2 s hty1 _ 0 (faiss_search_l2_nonneg s.index hmet q k)
    · rw [if_neg hq, if_neg hq]
      rfl

/-- Service state reached by adding one chunk to a service constructed with
`index_type = "ip"` (not a supported metric string). -/
def sC10 : FAISSService :=
  { dimension := 1, index_type := "ip", index := ⟨1, Metric.l2, [[0]]⟩,
    chunk_store := [⟨"a", emptyMeta, 0⟩] }

/-- Claim C10 is false as stated: constructing with `index_type = "ip"`
does succeed and creates an L2 flat index, but the resulting service is
distinguishable from an `"l2"` one — searching the stored vector `[0]`
with query `[2]` reports the raw squared distance `4` as score, not
`1 / (1 + 4)`. -/
theorem claim_C10_counterexample :
    add_chunks (mkFAISSService 1 "ip") [⟨"a", none, [0]⟩] = Except.ok sC10 ∧
    search sC10 [2] 1 = Except.ok [⟨"a", emptyMeta, 4, 1⟩] ∧
    (4 : ℚ) ≠ 1 / (1 + 4) := by
  refine ⟨by decide, ?_, by norm_num⟩
  norm_num [search, faiss_search, buildResults, faissKey, sqDist, innerProd, faissOrder,
    List.insertionSort, List.orderedInsert, sC10, emptyMeta, List.enum, List.enumFrom]
  decide

/-- Witness for the amended C10 theorem at concrete inputs. -/
theorem claim_C10_witness :
    create_index 1 "ip" = ⟨1, Metric.l2, []⟩ ∧
    search { sC10 with index_type := "l2" } [2] 1 =
      Except.map (List.map (fun r => { r with score := 1 / (1 + r.score) }))
        (search sC10 [2] 1) :=
  ⟨claim_C10_metric_fallback.1 1 "ip" (by decide),
   claim_C10_metric_fallback.2 sC10 [2] 1 (by decide) (by decide) rfl⟩

/-! ### Claim C5 -/

/-- The sorted `(value, id)` list a flat index computes before truncation. -/
def faissSorted (idx : FaissIndex) (q : List ℚ) : List (ℚ × Nat) :=
  List.insertionSort (faissOrder idx.metric)
    (idx.vectors.enum.map (fun p => (faissKey idx.metric q p.2, p.1)))

/-- The valid (non-sentinel) prefix of the columns `faiss_search` returns. -/
def faissTop (idx : FaissIndex) (q : List ℚ) (k : Nat) : List (ℚ × Int) :=
  ((faissSorted idx q).take k).map (fun p => (p.1, (p.2 : Int)))

theorem faiss_search_eq (idx : FaissIndex) (q : List ℚ) (k : Nat) :
    faiss_search idx q k =
      faissTop idx q k ++
        List.replicate (k - (faissTop idx q k).length) ((0 : ℚ), (-1 : Int)) :=
  rfl

theorem faissOrder_l2 (a b : ℚ × Nat) : faissOrder Metric.l2 a b ↔ a.1 ≤ b.1 := Iff.rfl

theorem faissOrder_ip (a b : ℚ × Nat) : faissOrder Metric.ip a b ↔ b.1 ≤ a.1 := Iff.rfl

theorem faissSorted_sorted (idx : FaissIndex) (q : List ℚ) :
    List.Sorted (faissOrder idx.metric) (faissSorted idx q) := by
  have htot : ∀ a b : ℚ × Nat, faissOrder idx.metric a b ∨ faissOrder idx.metric b a := by
    cases idx.metric <;> intro a b
    · exact le_total a.1 b.1
    · exact le_total b.1 a.1
  have htrans : ∀ a b c : ℚ × Nat,
      faissOrder idx.metric a b → faissOrder idx.metric b c → faissOrder idx.metric a c := by
    cases idx.metric <;> intro a b c hab hbc
    · exact le_trans hab hbc
    · exact le_trans hbc hab
  exact @List.sorted_insertionSort _ _ _ ⟨htot⟩ ⟨htrans⟩ _

theorem faissTop_valid (idx : FaissIndex) (q : List ℚ) (k : Nat) :
    ∀ p ∈ faissTop idx q k, p.2 ≠ -1 := by
  intro p hp
  obtain ⟨x, _, hfx⟩ := List.mem_map.mp hp
  rw [← hfx]
  simp only
  omega

theorem faissSorted_l2_nonneg (idx : FaissIndex) (q : List ℚ)
    (hm : idx.metric = Metric.l2) :
    ∀ p ∈ faissSorted idx q, 0 ≤ p.1 := by
  intro p hp
  rw [faissSorted, List.mem_insertionSort] at hp
  obtain ⟨e, _, hge⟩ := List.mem_map.mp hp
  rw [← hge, hm]
  exact sqDist_nonneg q e.2

theorem buildResults_skip_all (s : FAISSService) :
    ∀ (pads : List (ℚ × Int)) (i : Nat), (∀ p ∈ pads, p.2 = -1) →
      buildResults s pads i = Except.ok [] := by
  intro pads
  induction pads with
  | nil => intro i _; rfl
  | cons p rest ih =>
    intro i hall
    obtain ⟨d0, ix⟩ := p
    have hix : ix = -1 := hall (d0, ix) (List.mem_cons_self _ _)
    rw [buildResults, if_neg (fun hcontra => hcontra hix)]
    exact ih (i + 1) (fun p hp => hall p (List.mem_cons_of_mem _ hp))

theorem buildResults_ok_spec (s : FAISSService) :
    ∀ (top : List (ℚ × Int)) (pads : List (ℚ × Int)) (i : Nat)
      (results : List SearchResult),
      (∀ p ∈ top, p.2 ≠ -1) → (∀ p ∈ pads, p.2 = -1) →
      buildResults s (top ++ pads) i = Except.ok results →
      results.length = top.length ∧
      (∀ j, (hj : j < results.length) → (results.get ⟨j, hj⟩).rank = i + j + 1) ∧
      (∀ j, (hj : j < results.length) → (hj2 : j < top.length) →
        (results.get ⟨j, hj⟩).score =
          if s.index_type = "l2" then 1 / (1 + (top.get ⟨j, hj2⟩).1)
          else (top.get ⟨j, hj2⟩).1) := by
  intro top
  induction top with
  | nil =>
    intro pads i results _ hpad hok
    rw [List.nil_append, buildResults_skip_all s pads i hpad] at hok
    have hres : results = [] := by
      injection hok with h
      exact h.symm
    subst hres
    refine ⟨rfl, ?_, ?_⟩ <;> intro j hj <;> simp at hj
  | cons p top' ih =>
    intro pads i results htop hpad hok
    obtain ⟨dist, idx⟩ := p
    have hidx : idx ≠ -1 := htop _ (List.mem_cons_self _ _)
    rw [List.cons_append, buildResults, if_pos hidx] at hok
    cases hcd : s.chunk_store[idx.toNat]? with
    | none =>
      rw [hcd] at hok
      exact absurd hok (by simp)
    | some cd =>
      rw [hcd] at hok
      dsimp only at hok
      by_cases hzc : s.index_type = "l2" ∧ 1 + dist = 0
      · rw [if_pos hzc] at hok
        exact absurd hok (by simp)
      · rw [if_neg hzc] at hok
        cases hbr : buildResults s (top' ++ pads) (i + 1) with
        | error e =>
          rw [hbr] at hok
          exact absurd hok (by simp)
        | ok rs =>
          rw [hbr] at hok
          have hres : results =
              { text := cd.text, metadata := cd.metadata,
                score := if s.index_type = "l2" then 1 / (1 + dist) else dist,
                rank := i + 1 } :: rs := by
            injection hok with h
            exact h.symm
          subst hres
          obtain ⟨hlen, hrank, hscore⟩ := ih pads (i + 1) rs
            (fun p hp => htop p (List.mem_cons_of_mem _ hp)) hpad hbr
          refine ⟨by simpa using hlen, ?_, ?_⟩
          · intro j hj
            cases j with
            | zero => show i + 1 = i + 0 + 1; omega
            | succ j =>
              have hj' : j < rs.length := by simpa using hj
              have hr := hrank j hj'
              simp only [List.get_eq_getElem, List.getElem_cons_succ] at hr ⊢
              omega
          · intro j hj hj2
            cases j with
            | zero => rfl
            | succ j =>
              have hj' : j < rs.length := by simpa using hj
              have hj2' : j < top'.length := by simpa using hj2
              have hs := hscore j hj' hj2'
              simp only [List.get_eq_getElem, List.getElem_cons_succ] at hs ⊢
              exact hs

/-- Claim C5: for a service whose `index_type` is one of the two supported
metric strings (and whose index was built accordingly), any successful
`search` returns results with non-increasing scores and with
`rank = position + 1` — under `"l2"` the score is `1 / (1 + d)` for the
ascending squared distances `d`, under `"cosine"` it is the raw inner
product returned in descending order. -/
theorem claim_C5_search_ranked (s : FAISSService) (q : List ℚ) (k : Nat)
    (results : List SearchResult)
    (hmetric : (s.index_type = "l2" ∧ s.index.metric = Metric.l2) ∨
               (s.index_type = "cosine" ∧ s.index.metric = Metric.ip))
    (hok : search s q k = Except.ok results) :
    List.Chain' (fun a b => b.score ≤ a.score) results ∧
    ∀ i, (h : i < results.length) → (results.get ⟨i, h⟩).rank = i + 1 := by
  rw [search] at hok
  by_cases hq : q.length = s.index.d
  case neg =>
    rw [if_neg hq] at hok
    exact absurd hok (by simp)
  rw [if_pos hq, faiss_search_eq] at hok
  obtain ⟨hlen, hrank, hscore⟩ := buildResults_ok_spec s (faissTop s.index q k) _ 0 results
    (faissTop_valid s.index q k) (fun p hp => List.eq_of_mem_replicate hp ▸ rfl) hok
  have htlen : (faissTop s.index q k).length = ((faissSorted s.index q).take k).length := by
    rw [faissTop, List.length_map]
  have hchain_t : List.Chain' (faissOrder s.index.metric) ((faissSorted s.index q).take k) :=
    List.Pairwise.chain' (List.Pairwise.sublist (List.take_sublist k _)
      (faissSorted_sorted s.index q))
  have htop1 : ∀ j, (hj2 : j < (faissTop s.index q k).length) →
      (((faissTop s.index q k).get ⟨j, hj2⟩)).1 =
        (((faissSorted s.index q).take k).get ⟨j, htlen ▸ hj2⟩).1 := by
    intro j hj2
    simp only [faissTop, List.get_eq_getElem, List.getElem_map]
  constructor
  · rw [List.chain'_iff_get]
    intro j hjc
    have hj1 : j < results.length := by omega
    have hj2 : j + 1 < results.length := by omega
    have hjt1 : j < (faissTop s.index q k).length := by omega
    have hjt2 : j + 1 < (faissTop s.index q k).length := by omega
    have hsc1 := hscore j hj1 hjt1
    have hsc2 := hscore (j + 1) hj2 hjt2
    have hchain := List.chain'_iff_get.mp hchain_t j (by omega)
    have hd1 := htop1 j hjt1
    have hd2 := htop1 (j + 1) hjt2
    rcases hmetric with ⟨hty, hmet⟩ | ⟨hty, hmet⟩
    · rw [if_pos hty] at hsc1 hsc2
      rw [hsc1, hsc2, hd1, hd2]
      have hnn1 : 0 ≤ (((faissSorted s.index q).take k).get ⟨j, htlen ▸ hjt1⟩).1 :=
        faissSorted_l2_nonneg s.index q hmet _
          (List.mem_of_mem_take (List.get_mem _ _ _))
      have hle : (((faissSorted s.index q).take k).get ⟨j, htlen ▸ hjt1⟩).1 ≤
          (((faissSorted s.index q).take k).get ⟨j + 1, htlen ▸ hjt2⟩).1 := by
        have := hchain
        rw [hmet] at this
        exact this
      exact one_div_le_one_div_of_le (by linarith) (by linarith)
    · rw [if_neg (by rw [hty]; decide)] at hsc1 hsc2
      rw [hsc1, hsc2, hd1, hd2]
      have := hchain
      rw [hmet] at this
      exact this
  · intro i h
    have := hrank i h
    omega

/-- Populated L2 service for the C5 witness. -/
def sC5 : FAISSService :=
  { dimension := 1, index_type := "l2", index := ⟨1, Metric.l2, [[0], [1]]⟩,
    chunk_store := [⟨"a", emptyMeta, 0⟩, ⟨"b", emptyMeta, 1⟩] }

/-- The results of `search sC5 [0] 3`. -/
def resultsC5 : List SearchResult :=
  [⟨"a", emptyMeta, 1, 1⟩, ⟨"b", emptyMeta, 1 / 2, 2⟩]

/-- Witness for the C5 theorem at a concrete search. -/
theorem claim_C5_witness :
    List.Chain' (fun a b => b.score ≤ a.score) resultsC5 ∧
    ∀ i, (h : i < resultsC5.length) → (resultsC5.get ⟨i, h⟩).rank = i + 1 :=
  claim_C5_search_ranked sC5 [0] 3 resultsC5 (Or.inl ⟨rfl, rfl⟩) (by
    norm_num [search, faiss_search, buildResults, faissKey, sqDist, innerProd, faissOrder,
      List.insertionSort, List.orderedInsert, sC5, resultsC5, emptyMeta, List.enum,
      List.enumFrom])

/-! ### Claim C4 -/

theorem le_foldl_max : ∀ (vs : List Int) (v : Int), v ≤ vs.foldl max v := by
  intro vs
  induction vs with
  | nil => intro v; exact le_refl v
  | cons w ws ih => intro v; exact le_trans (le_max_left v w) (ih (max v w))

theorem mem_le_foldl_max : ∀ (vs : List Int) (v x : Int), x ∈ vs → x ≤ vs.foldl max v := by
  intro vs
  induction vs with
  | nil => intro v x hx; simp at hx
  | cons w ws ih =>
    intro v x hx
    rcases List.mem_cons.mp hx with h1 | h2
    · subst h1
      exact le_trans (le_max_right v x) (le_foldl_max ws (max v x))
    · exact ih (max v w) x h2

theorem foldl_max_le : ∀ (vs : List Int) (v m : Int), v ≤ m → (∀ x ∈ vs, x ≤ m) →
    vs.foldl max v ≤ m := by
  intro vs
  induction vs with
  | nil => intro v m hv _; exact hv
  | cons w ws ih =>
    intro v m hv hall
    exact ih (max v w) m (max_le hv (hall w (List.mem_cons_self _ _)))
      (fun x hx => hall x (List.mem_cons_of_mem _ hx))

theorem rfindRange_succ (p : Nat → Bool) (n : Nat) :
    rfindRange p (n + 1) = if p n then (n : Int) else rfindRange p n := by
  rw [rfindRange, rfindRange, List.range_succ, List.foldl_append]
  rfl

theorem rfindRange_spec (p : Nat → Bool) :
    ∀ n : Nat, (rfindRange p n = -1 ∧ ∀ j, j < n → p j = false) ∨
      (∃ j : Nat, j < n ∧ rfindRange p n = (j : Int) ∧ p j = true ∧
        ∀ i : Nat, j < i → i < n → p i = false) := by
  intro n
  induction n with
  | zero =>
    left
    exact ⟨rfl, fun j hj => absurd hj (Nat.not_lt_zero j)⟩
  | succ n ih =>
    rw [rfindRange_succ]
    by_cases hp : p n = true
    · right
      refine ⟨n, by omega, by rw [if_pos hp], hp, ?_⟩
      intro i h1 h2
      exact absurd (by omega : i < i) (lt_irrefl i)
    · rw [if_neg hp]
      have hpf : p n = false := by simpa using hp
      rcases ih with ⟨heq, hnone⟩ | ⟨j, hj, heq, hpj, hmax⟩
      · left
        refine ⟨heq, ?_⟩
        intro j hj
        rcases Nat.lt_succ_iff_lt_or_eq.mp hj with h | h
        · exact hnone j h
        · rw [h]; exact hpf
      · right
        refine ⟨j, by omega, heq, hpj, ?_⟩
        intro i h1 h2
        rcases Nat.lt_succ_iff_lt_or_eq.mp h2 with h | h
        · exact hmax i h1 h
        · rw [h]; exact hpf

theorem sliceIdx_of_nonneg (n : Nat) (i : Int) (h0 : 0 ≤ i) (hn : i ≤ (n : Int)) :
    sliceIdx n i = i.toNat := by
  rw [sliceIdx, if_neg (by omega)]
  have hle : i.toNat ≤ n := Int.toNat_le.mpr hn
  omega

theorem pyRfind_spec (l : List Char) (c : Char) (s e : Int)
    (hs0 : 0 ≤ s) (hsl : s ≤ (l.length : Int)) (he0 : 0 ≤ e) (hel : e ≤ (l.length : Int)) :
    (pyRfind l c s e = -1 ∧ ∀ j : Nat, s ≤ (j : Int) → (j : Int) < e → l[j]? ≠ some c) ∨
    (∃ j : Nat, pyRfind l c s e = (j : Int) ∧ s ≤ (j : Int) ∧ (j : Int) < e ∧
      l[j]? = some c ∧ ∀ i : Nat, j < i → (i : Int) < e → l[i]? ≠ some c) := by
  have hval : pyRfind l c s e =
      rfindRange (fun j => decide (s.toNat ≤ j) && decide (j < e.toNat) && (l[j]? == some c))
        l.length := by
    rw [pyRfind]
    rw [sliceIdx_of_nonneg _ _ hs0 hsl, sliceIdx_of_nonneg _ _ he0 hel]
  rcases rfindRange_spec
      (fun j => decide (s.toNat ≤ j) && decide (j < e.toNat) && (l[j]? == some c))
      l.length with ⟨heq, hnone⟩ | ⟨j, hjn, heq, hpj, hmax⟩
  · left
    refine ⟨by rw [hval]; exact heq, ?_⟩
    intro j hsj hje hcj
    have hjlen : j < l.length := by omega
    have hfalse := hnone j hjlen
    simp only [Bool.and_eq_false_iff, decide_eq_false_iff_not, not_le, not_lt,
      beq_eq_false_iff_ne, ne_eq] at hfalse
    rcases hfalse with (h | h) | h
    · omega
    · omega
    · exact h hcj
  · right
    simp only [Bool.and_eq_true, decide_eq_true_eq, beq_iff_eq] at hpj
    obtain ⟨⟨hja, hjb⟩, hjc⟩ := hpj
    refine ⟨j, by rw [hval]; exact heq, Int.toNat_le.mp hja, Int.lt_toNat.mp hjb, hjc, ?_⟩
    intro i hji hie hci
    have hilen : i < l.length := by omega
    have hfalse := hmax i hji hilen
    simp only [Bool.and_eq_true, decide_eq_true_eq, beq_iff_eq, Bool.and_eq_false_iff,
      decide_eq_false_iff_not, not_le, not_lt, beq_eq_false_iff_ne, ne_eq] at hfalse
    rcases hfalse with (h | h) | h
    · omega
    · omega
    · exact h hci

/-- Whether position `j` of the text holds one of the four sentence-break
markers `_create_basic_chunks` searches for. -/
def isMarkerAt (text : List Char) (j : Nat) : Bool :=
  text[j]? == some '.' || text[j]? == some '!' || text[j]? == some '?' || text[j]? == some '\n'

theorem maxOfValid (bps : List Int) (j : Nat)
    (hjin : ((j : Nat) : Int) ∈ bps) (hub : ∀ x ∈ bps, x ≤ ((j : Nat) : Int)) :
    ∃ v vs, bps.filter (fun p => p != -1) = v :: vs ∧ vs.foldl max v = ((j : Nat) : Int) := by
  have hmemf : ((j : Nat) : Int) ∈ bps.filter (fun p => p != -1) :=
    List.mem_filter.mpr ⟨hjin, bne_iff_ne.mpr (by omega)⟩
  cases hval : bps.filter (fun p => p != -1) with
  | nil => rw [hval] at hmemf; simp at hmemf
  | cons v vs =>
    refine ⟨v, vs, rfl, ?_⟩
    rw [hval] at hmemf
    have hsub : ∀ x ∈ v :: vs, x ≤ ((j : Nat) : Int) := by
      intro x hx
      exact hub x (List.mem_of_mem_filter (hval ▸ hx))
    apply le_antisymm
    · exact foldl_max_le vs v _ (hsub v (List.mem_cons_self _ _))
        (fun x hx => hsub x (List.mem_cons_of_mem _ hx))
    · rcases List.mem_cons.mp hmemf with h | h
      · exact h ▸ le_foldl_max vs v
      · exact mem_le_foldl_max vs v _ h

/-- The C4 failing config (well-formed: overlap < size). -/
def cfgC4c : ChunkingConfig := { chunk_size := 4, chunk_overlap := 1, min_chunk_size := 1 }

/-- Claim C4 is false as stated: it says that when a window contains none
of `'.'`, `'!'`, `'?'`, `'\n'` the cut falls exactly at `chunk_size`; on
the marker-free text `xyzzyx` the code instead raises (`max()` over an
empty sequence of break points), returning no chunk list at all. -/
theorem claim_C4_counterexample :
    cfgC4c.chunk_overlap < cfgC4c.chunk_size ∧
    create_basic_chunks cfgC4c "xyzzyx".toList 50 = Except.error ChunkErr.valueError := by
  decide

/-- Claim C4, amended: for a window starting at `start ≥ 0` whose right
edge `start + chunk_size` falls strictly before the end of the text,
(i) when the window `[start, start + chunk_size)` contains no sentence
marker the iteration raises (instead of cutting at `chunk_size` as the
original claim stated), and (ii) when `j` is the rightmost marker position
in the window, the cut point is `j + 1`, the next window's start is the
cut point minus `chunk_overlap`, and the window's content is emitted as a
chunk exactly when its stripped text is non-empty (dropped otherwise). -/
theorem claim_C4_basic_window_step (cfg : ChunkingConfig) (text : List Char) (start : Int)
    (h0 : 0 ≤ start) (hw : start + (cfg.chunk_size : Int) < (text.length : Int)) :
    ((∀ j : Nat, j < (start + (cfg.chunk_size : Int)).toNat → start.toNat ≤ j →
        isMarkerAt text j = false) →
      basicChunkStep cfg text start = BasicStep.err) ∧
    (∀ j : Nat, start.toNat ≤ j → j < (start + (cfg.chunk_size : Int)).toNat →
      isMarkerAt text j = true →
      (∀ i : Nat, i < (start + (cfg.chunk_size : Int)).toNat → j < i →
        isMarkerAt text i = false) →
      basicChunkStep cfg text start =
        (if pyStrip (pySlice text start ((j : Int) + 1)) ≠ [] then
          BasicStep.emit
            ⟨pyStrip (pySlice text start ((j : Int) + 1)), start, (j : Int) + 1,
              { type := some "basic_chunk" }⟩ ((j : Int) + 1 - (cfg.chunk_overlap : Int))
        else BasicStep.skip ((j : Int) + 1 - (cfg.chunk_overlap : Int)))) := by
  have hstart_lt : start < (text.length : Int) := by omega
  have hsl : start ≤ (text.length : Int) := le_of_lt hstart_lt
  have he0 : (0 : Int) ≤ start + (cfg.chunk_size : Int) := by omega
  have hel : start + (cfg.chunk_size : Int) ≤ (text.length : Int) := le_of_lt hw
  constructor
  · intro hnone
    have hr : ∀ c ∈ ['.', '!', '?', '\n'],
        pyRfind text c start (start + (cfg.chunk_size : Int)) = -1 := by
      intro c hcmem
      rcases pyRfind_spec text c start _ h0 hsl he0 hel with
        ⟨heq, _⟩ | ⟨j, _, hsj, hje, hcj, _⟩
      · exact heq
      · exfalso
        have hj1 : start.toNat ≤ j := Int.toNat_le.mpr hsj
        have hj2 : j < (start + (cfg.chunk_size : Int)).toNat := Int.lt_toNat.mpr hje
        have hmk := hnone j hj2 hj1
        rw [isMarkerAt] at hmk
        simp only [List.mem_cons, List.not_mem_nil, or_false] at hcmem
        rcases hcmem with rfl | rfl | rfl | rfl <;> simp [hcj] at hmk
    rw [basicChunkStep, if_pos hstart_lt]
    dsimp only
    rw [if_pos hw, hr '.' (by decide), hr '!' (by decide), hr '?' (by decide),
      hr '\n' (by decide)]
    rfl
  · intro j hj1 hj2 hmark hmax
    have hj1' : start ≤ (j : Int) := Int.toNat_le.mp hj1
    have hj2' : (j : Int) < start + (cfg.chunk_size : Int) := Int.lt_toNat.mp hj2
    have hmarker_of : ∀ (c : Char), c ∈ ['.', '!', '?', '\n'] → ∀ i : Nat,
        text[i]? = some c → isMarkerAt text i = true := by
      intro c hcm i hic
      rw [isMarkerAt]
      simp only [List.mem_cons, List.not_mem_nil, or_false] at hcm
      rcases hcm with rfl | rfl | rfl | rfl <;> simp [hic]
    obtain ⟨cj, hcjmem, hcjeq⟩ :
        ∃ c, c ∈ ['.', '!', '?', '\n'] ∧ text[j]? = some c := by
      rw [isMarkerAt] at hmark
      simp only [Bool.or_eq_true, beq_iff_eq] at hmark
      rcases hmark with ((h | h) | h) | h
      · exact ⟨'.', by decide, h⟩
      · exact ⟨'!', by decide, h⟩
      · exact ⟨'?', by decide, h⟩
      · exact ⟨'\n', by decide, h⟩
    have hub : ∀ (c : Char), c ∈ ['.', '!', '?', '\n'] →
        pyRfind text c start (start + (cfg.chunk_size : Int)) ≤ (j : Int) := by
      intro c hcm
      rcases pyRfind_spec text c start _ h0 hsl he0 hel with
        ⟨heq, _⟩ | ⟨m, heq, hsm, hme, hcm', _⟩
      · rw [heq]; omega
      · rw [heq]
        by_contra hgt
        push_neg at hgt
        have hmj : j < m := by omega
        have hmlt : m < (start + (cfg.chunk_size : Int)).toNat := Int.lt_toNat.mpr hme
        have hcontra := hmax m hmlt hmj
        rw [hmarker_of c hcm m hcm'] at hcontra
        exact Bool.noConfusion hcontra
    have hrcj : pyRfind text cj start (start + (cfg.chunk_size : Int)) = (j : Int) := by
      rcases pyRfind_spec text cj start _ h0 hsl he0 hel with
        ⟨_, hnone⟩ | ⟨m, heq, hsm, hme, hcm', hmaxc⟩
      · exact absurd hcjeq (hnone j hj1' hj2')
      · have hmle : (m : Int) ≤ (j : Int) := heq ▸ hub cj hcjmem
        have hjle : ¬ m < j := by
          intro hlt
          exact hmaxc j hlt hj2' hcjeq
        have : m = j := by omega
        rw [heq, this]
    have hjin : ((j : Nat) : Int) ∈
        [pyRfind text '.' start (start + (cfg.chunk_size : Int)),
         pyRfind text '!' start (start + (cfg.chunk_size : Int)),
         pyRfind text '?' start (start + (cfg.chunk_size : Int)),
         pyRfind text '\n' start (start + (cfg.chunk_size : Int))] := by
      simp only [List.mem_cons, List.not_mem_nil, or_false] at hcjmem
      rcases hcjmem with rfl | rfl | rfl | rfl <;> rw [← hrcj] <;> simp
    obtain ⟨v, vs, hval, hnb⟩ := maxOfValid
      [pyRfind text '.' start (start + (cfg.chunk_size : Int)),
       pyRfind text '!' start (start + (cfg.chunk_size : Int)),
       pyRfind text '?' start (start + (cfg.chunk_size : Int)),
       pyRfind text '\n' start (start + (cfg.chunk_size : Int))] j hjin (by
        intro x hx
        simp only [List.mem_cons, List.not_mem_nil, or_false] at hx
        rcases hx with rfl | rfl | rfl | rfl
        · exact hub '.' (by decide)
        · exact hub '!' (by decide)
        · exact hub '?' (by decide)
        · exact hub '\n' (by decide))
    rw [basicChunkStep, if_pos hstart_lt]
    dsimp only
    rw [if_pos hw, hval]
    dsimp only
    rw [hnb, if_pos (bne_iff_ne.mpr (by omega : ((j : Nat) : Int) ≠ -1))]

/-- The C4 witness config. -/
def cfgC4 : ChunkingConfig := { chunk_size := 5, chunk_overlap := 2 }

/-- Witness for the amended C4 theorem: one window step over `ab.defgh`
with the rightmost marker at position 2 cuts at 3 and restarts at
`3 - chunk_overlap`. -/
theorem claim_C4_witness :
    basicChunkStep cfgC4 "ab.defgh".toList 0 =
      (if pyStrip (pySlice "ab.defgh".toList 0 (((2 : Nat) : Int) + 1)) ≠ [] then
        BasicStep.emit
          ⟨pyStrip (pySlice "ab.defgh".toList 0 (((2 : Nat) : Int) + 1)), 0,
            ((2 : Nat) : Int) + 1, { type := some "basic_chunk" }⟩
          (((2 : Nat) : Int) + 1 - (cfgC4.chunk_overlap : Int))
      else BasicStep.skip (((2 : Nat) : Int) + 1 - (cfgC4.chunk_overlap : Int))) :=
  (claim_C4_basic_window_step cfgC4 "ab.defgh".toList 0 (by decide) (by decide)).2 2
    (by decide) (by decide) (by decide) (by decide)

end Aimagine
